import Mathlib

/-!
Verification of the eshttp workspace synchronization engine against its
natural-language specification.  The TypeScript sources are shallowly
embedded: JavaScript strings become `List Char`, byte buffers become
`List Nat`, IndexedDB / SQL stores become association lists, and external
effects (Tauri bridge, browser permission prompts, node crypto, network
fetches) become explicit oracle parameters.
-/

namespace Eshttp

/-- JavaScript strings are modelled as lists of characters. -/
abbrev Str := List Char

/-- Byte buffers (node `Buffer`) are modelled as lists of byte values. -/
abbrev ByteStr := List Nat

/-- The character set removed by JavaScript `String.prototype.trim`
(whitespace; the common members suffice for the embedded checks). -/
def jsWhitespace (c : Char) : Bool :=
  c = ' ' ∨ c = '\t' ∨ c = '\n' ∨ c = '\r' ∨ c = '\x0b' ∨ c = '\x0c'

/-- JavaScript `value.trim()`: strip whitespace from both ends. -/
def jsTrim (s : Str) : Str :=
  ((s.dropWhile jsWhitespace).reverse.dropWhile jsWhitespace).reverse

/-- JavaScript `value.replace(/\\/g, "/")`: backslashes become forward
slashes. -/
def bs2fs (s : Str) : Str :=
  s.map (fun c => if c = '\\' then '/' else c)

/-- JavaScript `value.replace(/^\/+|\/+$/g, "")`: strip the leading and the
trailing run of slashes. -/
def stripSlashes (s : Str) : Str :=
  ((s.dropWhile (fun c => c = '/')).reverse.dropWhile (fun c => c = '/')).reverse

/-- JavaScript `value.split(sep)` for a one-character separator: always
returns at least one (possibly empty) field. -/
def splitOnChar (c : Char) : Str → List Str
  | [] => [[]]
  | x :: xs =>
    let r := splitOnChar c xs
    if x = c then [] :: r
    else
      match r with
      | [] => [[x]]
      | s :: rest => (x :: s) :: rest

/-- Join segments with a single slash (`segments.join("/")`). -/
def joinSlash : List Str → Str
  | [] => []
  | [s] => s
  | s :: rest => s ++ '/' :: joinSlash rest

/-- Truthiness of an optional JavaScript string: `undefined`, `null` and the
empty string are falsy. -/
def jsTruthyStrOpt : Option Str → Bool
  | none => false
  | some s => decide (s ≠ [])

/- ## apps/desktop/api/_lib/security.ts -/

/-- Embeds `safeStringEqual` (security.ts).  The source compares the UTF-8
byte buffers of the two strings, byte count first and then byte-by-byte in
constant time; on the value level this coincides with string equality. -/
def safeStringEqual (left right : Str) : Bool :=
  left == right

/-- Embeds `normalizeRelativePath` (security.ts): backslashes to forward
slashes, leading/trailing slashes stripped, `"."` for the empty path, and
`null` when any nonempty segment is `"."` or `".."`. -/
def normalizeRelativePath (value : Str) : Option Str :=
  let normalized := stripSlashes (bs2fs value)
  if normalized = [] then some ['.']
  else
    let segments := (splitOnChar '/' normalized).filter (fun s => s ≠ [])
    if segments.any (fun s => s = ['.'] ∨ s = ['.', '.']) then none
    else some (joinSlash segments)

/- ## apps/desktop/src/data/storageOptions.ts -/

/-- Embeds `ImportRuntime` (idb.ts). -/
inductive ImportRuntime where
  | tauri
  | web
deriving DecidableEq, Repr

/-- Embeds `StorageKind` (storageOptions.ts). -/
inductive StorageKind where
  | direct
  | git
  | github
deriving DecidableEq, Repr

/-- Embeds the persisted `ImportRecord` (idb.ts together with the storage
metadata fields the storage-option module reads; browser directory handles
are opaque capabilities, modelled as numeric tokens).  `pendingPaths` is the
deduplicated commit-pending path set the spec tracks per import. -/
structure ImportRecord where
  id : Str
  name : Str
  runtime : ImportRuntime
  createdAt : Nat
  path : Option Str := none
  handle : Option Nat := none
  storageKind : Option StorageKind := none
  gitRepoRoot : Option Str := none
  githubOwner : Option Str := none
  githubRepo : Option Str := none
  githubBranch : Option Str := none
  githubWorkspacePath : Option Str := none
  pendingPaths : List Str := []
deriving DecidableEq, Repr

/-- Embeds `SaveCheckResult` / `CommitCheckResult` (storageOptions.ts):
`{ ok: true }` or `{ ok: false, reason }`. -/
inductive CheckResult where
  | ok
  | notOk (reason : Str)
deriving DecidableEq, Repr

/-- Embeds `SaveInput` (storageOptions.ts). -/
structure SaveInput where
  importRecord : ImportRecord
  relativePath : Str
  content : Str

/-- Embeds `CommitInput` (storageOptions.ts). -/
structure CommitInput where
  importRecord : ImportRecord
  paths : List Str
  message : Str
  files : Option (List (Str × Str)) := none

/-- Embeds the pure capability surface of `WorkspaceStorageOption`
(storageOptions.ts).  The effectful `save`/`commit` members perform
external writes and are not needed by the embedded properties. -/
structure WorkspaceStorageOption where
  kind : StorageKind
  supportsCommit : Bool
  checkSave : SaveInput → CheckResult
  checkCommit : Option (CommitInput → CheckResult)

/-- Embeds `createWebDirectStorageOption` (storageOptions.ts); the browser
permission prompt (`ensureReadWritePermission`) is an oracle over the
opaque directory-handle token. -/
def createWebDirectStorageOption (ensurePermission : Nat → Bool) :
    WorkspaceStorageOption where
  kind := .direct
  supportsCommit := false
  checkSave input :=
    match input.importRecord.handle with
    | none => .notOk "Imported web directory handle is missing".data
    | some h =>
      if ensurePermission h then .ok
      else .notOk "No write permission for selected directory".data
  checkCommit := none

/-- Embeds the `checkCommit` member of `createWebGitHubStorageOption`
(storageOptions.ts).  The source tests each metadata field with JavaScript
truthiness (missing or empty strings fail). -/
def githubCheckCommit (input : CommitInput) : CheckResult :=
  if !jsTruthyStrOpt input.importRecord.githubOwner
      || !jsTruthyStrOpt input.importRecord.githubRepo then
    .notOk "GitHub repository metadata is missing for imported workspace".data
  else if !jsTruthyStrOpt input.importRecord.githubBranch
      || !jsTruthyStrOpt input.importRecord.githubWorkspacePath then
    .notOk "GitHub branch or workspace path metadata is missing".data
  else if (input.files.getD []).isEmpty then
    .notOk "No pending file content found for commit".data
  else .ok

/-- Embeds `createWebGitHubStorageOption` (storageOptions.ts): save is
rejected unconditionally because edits are staged in pending file
contents; commit goes through the authenticated backend call. -/
def createWebGitHubStorageOption : WorkspaceStorageOption where
  kind := .github
  supportsCommit := true
  checkSave _ :=
    .notOk "GitHub storage writes are tracked in cache and committed in batch.".data
  checkCommit := some githubCheckCommit

/-- Embeds `createTauriDirectStorageOption` (storageOptions.ts). -/
def createTauriDirectStorageOption : WorkspaceStorageOption where
  kind := .direct
  supportsCommit := false
  checkSave input :=
    if jsTruthyStrOpt input.importRecord.path then .ok
    else .notOk "Imported path is missing for tauri workspace".data
  checkCommit := none

/-- Embeds `createTauriGitStorageOption` (storageOptions.ts). -/
def createTauriGitStorageOption : WorkspaceStorageOption where
  kind := .git
  supportsCommit := true
  checkSave input :=
    if ¬ jsTruthyStrOpt input.importRecord.path then
      .notOk "Imported path is missing for tauri workspace".data
    else if ¬ jsTruthyStrOpt input.importRecord.gitRepoRoot then
      .notOk "Git repository root is missing for imported workspace".data
    else .ok
  checkCommit := some fun input =>
    if ¬ jsTruthyStrOpt input.importRecord.gitRepoRoot then
      .notOk "Git repository root is missing for imported workspace".data
    else if ¬ jsTruthyStrOpt input.importRecord.path then
      .notOk "Imported path is missing for tauri workspace".data
    else .ok

/-- Embeds `resolveStorageOption` (storageOptions.ts): web runtime picks the
GitHub option exactly for `storageKind = "github"`, tauri picks the git
option exactly for `storageKind = "git"`, everything else is direct. -/
def resolveStorageOption (ensurePermission : Nat → Bool)
    (importRecord : ImportRecord) : WorkspaceStorageOption :=
  if importRecord.runtime = .web then
    if importRecord.storageKind = some .github then createWebGitHubStorageOption
    else createWebDirectStorageOption ensurePermission
  else
    if importRecord.storageKind = some .git then createTauriGitStorageOption
    else createTauriDirectStorageOption

/-- The storage kind the spec prescribes as a pure function of the pair
(backend runtime, storageKind); written from the spec text for comparison
with the code. -/
def specStorageKindOf (runtime : ImportRuntime) (storageKind : Option StorageKind) :
    StorageKind :=
  match runtime with
  | .web => if storageKind = some .github then .github else .direct
  | .tauri => if storageKind = some .git then .git else .direct

/-- C6: the kind of the resolved storage option is a pure function of
(runtime, storageKind) alone — web + github yields github, other web
imports yield direct, tauri + git yields git, other tauri imports yield
direct — independent of every other field and of the permission oracle. -/
theorem resolveStorageOption_kind_pure (ensurePermission : Nat → Bool)
    (importRecord : ImportRecord) :
    (resolveStorageOption ensurePermission importRecord).kind
      = specStorageKindOf importRecord.runtime importRecord.storageKind := by
  cases h : importRecord.runtime <;>
    simp [resolveStorageOption, specStorageKindOf, h,
      createWebGitHubStorageOption, createWebDirectStorageOption,
      createTauriGitStorageOption, createTauriDirectStorageOption] <;>
    split <;> rfl

/-- C7: for the remote-git (github) storage option, `checkSave` rejects
every input with an explanatory reason, and `checkCommit` succeeds exactly
when owner, repo, branch and workspace path are present (truthy) and the
pending file-content map is non-empty; otherwise it reports a reason. -/
theorem webGitHub_checkSave_unsupported_checkCommit_iff :
    (∀ input : SaveInput,
      createWebGitHubStorageOption.checkSave input
        = CheckResult.notOk
            "GitHub storage writes are tracked in cache and committed in batch.".data)
    ∧ createWebGitHubStorageOption.checkCommit = some githubCheckCommit
    ∧ (∀ input : CommitInput,
        (githubCheckCommit input = CheckResult.ok ↔
          (jsTruthyStrOpt input.importRecord.githubOwner = true
            ∧ jsTruthyStrOpt input.importRecord.githubRepo = true
            ∧ jsTruthyStrOpt input.importRecord.githubBranch = true
            ∧ jsTruthyStrOpt input.importRecord.githubWorkspacePath = true
            ∧ input.files.getD [] ≠ [])))
    ∧ (∀ input : CommitInput,
        githubCheckCommit input ≠ CheckResult.ok →
          ∃ reason : Str, githubCheckCommit input = CheckResult.notOk reason) := by
  refine ⟨fun _ => rfl, rfl, fun input => ?_, fun input h => ?_⟩
  · cases h1 : jsTruthyStrOpt input.importRecord.githubOwner <;>
    cases h2 : jsTruthyStrOpt input.importRecord.githubRepo <;>
    cases h3 : jsTruthyStrOpt input.importRecord.githubBranch <;>
    cases h4 : jsTruthyStrOpt input.importRecord.githubWorkspacePath <;>
    cases h5 : (input.files.getD []).isEmpty <;>
      simp_all [githubCheckCommit, List.isEmpty_iff]
  · rcases hres : githubCheckCommit input with _ | reason
    · exact absurd hres h
    · exact ⟨reason, rfl⟩

/- ## apps/desktop/api/_lib/webhook.ts -/

/-- The GitHub signature marker string, `"sha256="`. -/
def githubSignatureMarker : Str := "sha256=".data

/-- Embeds `computeGitHubWebhookSignature` (webhook lib): the marker
followed by the hex HMAC-SHA256 digest of the payload under the secret.
The node `createHmac` primitive is an oracle `hmacSha256Hex secret payload`. -/
def computeGitHubWebhookSignature (hmacSha256Hex : Str → ByteStr → Str)
    (payload : ByteStr) (secret : Str) : Str :=
  githubSignatureMarker ++ hmacSha256Hex secret payload

/-- Embeds `verifyGitHubWebhookSignature` (webhook lib): reject headers
that do not carry the marker, then constant-time compare against the
freshly computed signature. -/
def verifyGitHubWebhookSignature (hmacSha256Hex : Str → ByteStr → Str)
    (payload : ByteStr) (secret : Str) (signatureHeader : Str) : Bool :=
  if githubSignatureMarker.isPrefixOf signatureHeader then
    safeStringEqual (computeGitHubWebhookSignature hmacSha256Hex payload secret)
      signatureHeader
  else false

/-- C5: webhook signature verification succeeds exactly when the header
equals `"sha256="` followed by the hex HMAC-SHA256 digest of the payload
under the secret.  Hence it accepts a freshly computed signature, and any
alteration of the payload, secret or marker that changes the expected
string (the cryptographic content of the external HMAC oracle) makes it
return false. -/
theorem verifyGitHubWebhookSignature_iff (hmacSha256Hex : Str → ByteStr → Str)
    (payload : ByteStr) (secret : Str) (signatureHeader : Str) :
    verifyGitHubWebhookSignature hmacSha256Hex payload secret signatureHeader = true
      ↔ signatureHeader = computeGitHubWebhookSignature hmacSha256Hex payload secret := by
  unfold verifyGitHubWebhookSignature
  by_cases hp : githubSignatureMarker.isPrefixOf signatureHeader
  · simp only [hp, if_true, safeStringEqual, beq_iff_eq]
    exact eq_comm
  · simp only [hp, if_false]
    constructor
    · intro h
      exact absurd h (by simp)
    · intro h
      subst h
      exact absurd (List.isPrefixOf_iff_prefix.mpr (List.prefix_append _ _)) hp

/- ## apps/desktop/api/github/webhook.ts -/

/-- Embeds the relevant headers and raw body of an inbound webhook
request. -/
structure WebhookRequest where
  method : Str
  signatureHeader : Option Str
  eventHeader : Option Str
  deliveryHeader : Option Str
  payload : ByteStr

/-- Embeds `parseWebhookPayload` (webhook.ts): decode the raw body and
parse it as JSON; an empty body or a parse failure yields `null`.  UTF-8
decoding and `JSON.parse` are external oracles. -/
def parseWebhookPayload (decodeUtf8 : ByteStr → Str) (jsonParse : Str → Option Unit)
    (payload : ByteStr) : Option Unit :=
  let bodyText := decodeUtf8 payload
  if bodyText = [] then none else jsonParse bodyText

/-- Embeds the webhook handler (webhook.ts) as the HTTP status it
responds with: non-POST 405; missing secret 500; missing signature header
401; missing event header 400; bad signature 401; unparseable payload
400; ping event 200; any other accepted event 202. -/
def webhookHandler (hmacSha256Hex : Str → ByteStr → Str) (decodeUtf8 : ByteStr → Str)
    (jsonParse : Str → Option Unit) (githubWebhookSecret : Option Str)
    (req : WebhookRequest) : Nat :=
  if req.method ≠ "POST".data then 405
  else if !jsTruthyStrOpt githubWebhookSecret then 500
  else if !jsTruthyStrOpt req.signatureHeader then 401
  else if !jsTruthyStrOpt req.eventHeader then 400
  else if !verifyGitHubWebhookSignature hmacSha256Hex req.payload
      (githubWebhookSecret.getD []) (req.signatureHeader.getD []) then 401
  else
    match parseWebhookPayload decodeUtf8 jsonParse req.payload with
    | none => 400
    | some _ => if req.eventHeader.getD [] = "ping".data then 200 else 202

/-- C9: the webhook endpoint answers every request lacking the event
header with an error status (at least 400, never an acceptance), and for
a signature-verified POST request with a parseable payload it responds
200 for the ping event and 202 for every other event. -/
theorem webhookHandler_event_required_and_accept_statuses
    (hmacSha256Hex : Str → ByteStr → Str) (decodeUtf8 : ByteStr → Str)
    (jsonParse : Str → Option Unit) (githubWebhookSecret : Option Str)
    (req : WebhookRequest) :
    (jsTruthyStrOpt req.eventHeader = false →
      400 ≤ webhookHandler hmacSha256Hex decodeUtf8 jsonParse githubWebhookSecret req)
    ∧ (req.method = "POST".data →
        jsTruthyStrOpt githubWebhookSecret = true →
        jsTruthyStrOpt req.signatureHeader = true →
        jsTruthyStrOpt req.eventHeader = true →
        verifyGitHubWebhookSignature hmacSha256Hex req.payload
          (githubWebhookSecret.getD []) (req.signatureHeader.getD []) = true →
        parseWebhookPayload decodeUtf8 jsonParse req.payload ≠ none →
        webhookHandler hmacSha256Hex decodeUtf8 jsonParse githubWebhookSecret req
          = if req.eventHeader.getD [] = "ping".data then 200 else 202) := by
  constructor
  · intro hev
    unfold webhookHandler
    split
    · omega
    · split
      · omega
      · split
        · omega
        · simp [hev]
  · intro hm hsec hsig hev hver hparse
    unfold webhookHandler
    rw [if_neg (by simp [hm]), if_neg (by simp [hsec]), if_neg (by simp [hsig]),
      if_neg (by simp [hev]), if_neg (by simp [hver])]
    rcases hres : parseWebhookPayload decodeUtf8 jsonParse req.payload with _ | u
    · exact absurd hres hparse
    · rfl

/-- Witness for C9 at concrete requests: a request without the event
header is answered with an error status, and a verified ping request is
answered 200 while another verified event is answered 202 (oracles: an
HMAC returning the empty digest, identity-free decode, always-successful
parse). -/
theorem webhookHandler_event_required_and_accept_statuses_witness :
    (400 ≤ webhookHandler (fun _ _ => []) (fun _ => "x".data) (fun _ => some ())
        (some ("s".data))
        ⟨"POST".data, some githubSignatureMarker, none, none, []⟩)
    ∧ (webhookHandler (fun _ _ => []) (fun _ => "x".data) (fun _ => some ())
        (some ("s".data))
        ⟨"POST".data, some githubSignatureMarker, some ("ping".data), none, []⟩
        = 200)
    ∧ (webhookHandler (fun _ _ => []) (fun _ => "x".data) (fun _ => some ())
        (some ("s".data))
        ⟨"POST".data, some githubSignatureMarker, some ("push".data), none, []⟩
        = 202) := by
  refine ⟨?_, ?_, ?_⟩
  · exact (webhookHandler_event_required_and_accept_statuses _ _ _ _ _).1 (by decide)
  · have h := (webhookHandler_event_required_and_accept_statuses
      (fun _ _ => []) (fun _ => "x".data) (fun _ => some ()) (some ("s".data))
      ⟨"POST".data, some githubSignatureMarker, some ("ping".data), none, []⟩).2
      rfl (by decide) (by decide) (by decide) (by decide) (by decide)
    simpa using h
  · have h := (webhookHandler_event_required_and_accept_statuses
      (fun _ _ => []) (fun _ => "x".data) (fun _ => some ()) (some ("s".data))
      ⟨"POST".data, some githubSignatureMarker, some ("push".data), none, []⟩).2
      rfl (by decide) (by decide) (by decide) (by decide) (by decide)
    simpa using h

/- ## apps/desktop/api/_lib/validation.ts -/

/-- One character of the `[A-Za-z0-9_.-]` class used by the owner/repo and
file-path patterns. -/
def ownerRepoChar (c : Char) : Bool :=
  c.isAlpha || c.isDigit || c = '_' || c = '.' || c = '-'

/-- The owner/repo pattern: 1 to 100 characters of `[A-Za-z0-9_.-]`. -/
def ownerRepoPattern (s : Str) : Bool :=
  decide (1 ≤ s.length) && decide (s.length ≤ 100) && s.all ownerRepoChar

/-- One character of the branch class: alphanumeric, dot, underscore,
slash or dash. -/
def branchChar (c : Char) : Bool :=
  c.isAlpha || c.isDigit || c = '.' || c = '_' || c = '/' || c = '-'

/-- The branch pattern: 1 to 255 characters of the branch class. -/
def branchPattern (s : Str) : Bool :=
  decide (1 ≤ s.length) && decide (s.length ≤ 255) && s.all branchChar

/-- JavaScript `value.includes("..")`. -/
def containsDotDot : Str → Bool
  | c1 :: c2 :: rest => (c1 = '.' && c2 = '.') || containsDotDot (c2 :: rest)
  | _ => false

/-- The commit file-path pattern `(seg\/)*seg` with `seg` a nonempty run of
`[A-Za-z0-9_.-]`: every slash-separated field is nonempty and in class. -/
def filePathPattern (s : Str) : Bool :=
  let segs := splitOnChar '/' s
  decide (segs ≠ []) && segs.all (fun seg => decide (seg ≠ []) && seg.all ownerRepoChar)

/-- UTF-8 width of one unicode scalar value. -/
def utf8CharLen (c : Char) : Nat :=
  if c.toNat < 128 then 1
  else if c.toNat < 2048 then 2
  else if c.toNat < 65536 then 3
  else 4

/-- `Buffer.byteLength(value, "utf8")`: total UTF-8 byte count. -/
def utf8ByteLength (s : Str) : Nat :=
  (s.map utf8CharLen).sum

/-- Cap on the commit message length. -/
def MESSAGE_MAX : Nat := 200

/-- Cap on the number of files per commit payload. -/
def FILE_COUNT_MAX : Nat := 100

/-- Cap on the UTF-8 byte size of a single file. -/
def FILE_BYTES_MAX : Nat := 200000

/-- Cap on the aggregate UTF-8 byte size of all files. -/
def TOTAL_BYTES_MAX : Nat := 2000000

/-- Embeds `asString` (validation.ts): a non-string JavaScript value
(modelled `none`) yields `null`, a string is trimmed. -/
def asString (value : Option Str) : Option Str :=
  value.map jsTrim

/-- Embeds `normalizeWorkspacePath` (validation.ts). -/
def normalizeWorkspacePath (value : Str) : Option Str :=
  match normalizeRelativePath value with
  | none => none
  | some normalized => if normalized = ['.'] then none else some normalized

/-- Embeds `normalizeCommitFilePath` (validation.ts). -/
def normalizeCommitFilePath (value : Str) : Option Str :=
  match normalizeRelativePath value with
  | none => none
  | some normalized =>
    if normalized = ['.'] then none
    else if !filePathPattern normalized then none
    else some normalized

/-- JavaScript object assignment `files[key] = value` on an entry list:
replace in place when the key exists, append otherwise. -/
def objSet : List (Str × Str) → Str → Str → List (Str × Str)
  | [], key, value => [(key, value)]
  | (k0, v0) :: rest, key, value =>
    if k0 = key then (k0, value) :: rest
    else (k0, v0) :: objSet rest key value

/-- Embeds the per-entry loop of `validateCommitPayload`: normalize and
pattern-check each path, require string content, enforce the per-file and
the running aggregate byte caps, and store the content under the
normalized path. -/
def buildFiles : List (Str × Option Str) → Nat → List (Str × Str) →
    Option (List (Str × Str))
  | [], _, acc => some acc
  | (rawPath, rawContent) :: rest, totalBytes, acc =>
    match normalizeCommitFilePath rawPath with
    | none => none
    | some normalizedPath =>
      match rawContent with
      | none => none
      | some content =>
        if FILE_BYTES_MAX < utf8ByteLength content then none
        else if TOTAL_BYTES_MAX < totalBytes + utf8ByteLength content then none
        else buildFiles rest (totalBytes + utf8ByteLength content)
          (objSet acc normalizedPath content)

/-- The raw (still unvalidated) commit request body: `none` fields model
absent or non-string JSON values; `files` entries model `Object.entries`
of the files object in order, with `none` content for non-string values. -/
structure RawCommitPayload where
  owner : Option Str := none
  repo : Option Str := none
  branch : Option Str := none
  workspacePath : Option Str := none
  message : Option Str := none
  files : Option (List (Str × Option Str)) := none

/-- Embeds the validated `CommitPayload` (validation.ts). -/
structure CommitPayload where
  owner : Str
  repo : Str
  branch : Str
  workspacePath : Str
  message : Str
  files : List (Str × Str)
deriving DecidableEq, Repr

/-- Embeds `validateCommitPayload` (validation.ts); `none` is the `null`
rejection.  (The source also rejects non-object bodies before reading any
field; the embedding starts from the field reads.) -/
def validateCommitPayload (p : RawCommitPayload) : Option CommitPayload :=
  match asString p.owner, asString p.repo, asString p.branch,
      asString p.workspacePath, asString p.message with
  | some owner, some repo, some branch, some workspacePath, some message =>
    if decide (owner = []) || !ownerRepoPattern owner then none
    else if decide (repo = []) || !ownerRepoPattern repo then none
    else if decide (branch = []) || !branchPattern branch || containsDotDot branch
        || decide (branch.head? = some '/') then none
    else if decide (workspacePath = []) then none
    else
      match normalizeWorkspacePath workspacePath with
      | none => none
      | some normalizedWorkspacePath =>
        if decide (message = []) || decide (MESSAGE_MAX < message.length) then none
        else
          match p.files with
          | none => none
          | some entries =>
            if decide (entries.length = 0) || decide (FILE_COUNT_MAX < entries.length) then
              none
            else
              match buildFiles entries 0 [] with
              | none => none
              | some files =>
                some ⟨owner, repo, branch, normalizedWorkspacePath, message, files⟩
  | _, _, _, _, _ => none

/-- The claim's rejection predicate, written from the spec text: after
backslash-to-forward-slash normalization and leading/trailing slash
stripping, some nonempty slash-separated segment is `"."` or `".."`. -/
def hasDotOrDotDotSegment (path : Str) : Bool :=
  ((splitOnChar '/' (stripSlashes (bs2fs path))).filter (fun s => s ≠ [])).any
    (fun s => s = ['.'] ∨ s = ['.', '.'])

theorem normalizeRelativePath_eq_none_of_hasDot (p : Str)
    (h : hasDotOrDotDotSegment p = true) : normalizeRelativePath p = none := by
  unfold hasDotOrDotDotSegment at h
  unfold normalizeRelativePath
  by_cases h0 : stripSlashes (bs2fs p) = []
  · rw [h0] at h
    simp [splitOnChar] at h
  · simp only [h0, if_false, h, if_true]

theorem normalizeCommitFilePath_eq_none_of_hasDot (p : Str)
    (h : hasDotOrDotDotSegment p = true) : normalizeCommitFilePath p = none := by
  unfold normalizeCommitFilePath
  rw [normalizeRelativePath_eq_none_of_hasDot p h]

theorem buildFiles_eq_none_of_bad (entries : List (Str × Option Str))
    (totalBytes : Nat) (acc : List (Str × Str)) (kv : Str × Option Str)
    (hbad : normalizeCommitFilePath kv.1 = none) :
    kv ∈ entries → buildFiles entries totalBytes acc = none := by
  induction entries generalizing totalBytes acc with
  | nil => intro hmem; cases hmem
  | cons head rest ih =>
    intro hmem
    rcases head with ⟨rawPath, rawContent⟩
    rcases List.mem_cons.mp hmem with heq | hmem'
    · rw [heq] at hbad
      simp only at hbad
      unfold buildFiles
      rw [hbad]
    · unfold buildFiles
      rcases hn : normalizeCommitFilePath rawPath with _ | np
      · rfl
      · rcases rawContent with _ | content
        · rfl
        · simp only
          split
          · rfl
          · split
            · rfl
            · exact ih _ _ hmem'

/-- C4: `validateCommitPayload` rejects every payload in which some file
path has a `.` or `..` segment after normalization, and accepts a
well-formed payload with one in-cap file, storing its content unchanged
under the normalized path. -/
theorem validateCommitPayload_rejects_dot_segments_and_preserves_content :
    (∀ (p : RawCommitPayload) (entries : List (Str × Option Str))
        (kv : Str × Option Str),
      p.files = some entries → kv ∈ entries → hasDotOrDotDotSegment kv.1 = true →
        validateCommitPayload p = none)
    ∧ (∀ (p : RawCommitPayload) (owner repo branch workspacePath message : Str)
        (nws rawPath content npath : Str),
        asString p.owner = some owner → owner ≠ [] → ownerRepoPattern owner = true →
        asString p.repo = some repo → repo ≠ [] → ownerRepoPattern repo = true →
        asString p.branch = some branch → branch ≠ [] → branchPattern branch = true →
        containsDotDot branch = false → branch.head? ≠ some '/' →
        asString p.workspacePath = some workspacePath →
        normalizeWorkspacePath workspacePath = some nws →
        asString p.message = some message → message ≠ [] →
        message.length ≤ MESSAGE_MAX →
        p.files = some [(rawPath, some content)] →
        normalizeCommitFilePath rawPath = some npath →
        utf8ByteLength content ≤ FILE_BYTES_MAX →
        validateCommitPayload p
          = some ⟨owner, repo, branch, nws, message, [(npath, content)]⟩) := by
  constructor
  · intro p entries kv hfiles hmem hdot
    unfold validateCommitPayload
    rcases h1 : asString p.owner with _ | owner
    · rfl
    rcases h2 : asString p.repo with _ | repo
    · rfl
    rcases h3 : asString p.branch with _ | branch
    · rfl
    rcases h4 : asString p.workspacePath with _ | ws
    · rfl
    rcases h5 : asString p.message with _ | msg
    · rfl
    simp only
    split
    · rfl
    split
    · rfl
    split
    · rfl
    split
    · rfl
    rcases h6 : normalizeWorkspacePath ws with _ | nws
    · rfl
    simp only
    split
    · rfl
    rw [hfiles]
    simp only
    split
    · rfl
    rw [buildFiles_eq_none_of_bad entries 0 [] kv
      (normalizeCommitFilePath_eq_none_of_hasDot kv.1 hdot) hmem]
  · intro p owner repo branch ws message nws rawPath content npath
      h1 h1a h1b h2 h2a h2b h3 h3a h3b h3c h3d h4 h4a h5 h5a h5b hfiles hnorm hbytes
    have hws : ws ≠ [] := by
      intro hcontra
      rw [hcontra] at h4a
      rw [show normalizeWorkspacePath ([] : Str) = none from by decide] at h4a
      cases h4a
    unfold validateCommitPayload
    rw [h1, h2, h3, h4, h5]
    simp only
    rw [if_neg (by simp [h1a, h1b]), if_neg (by simp [h2a, h2b]),
      if_neg (by simp [h3a, h3b, h3c, h3d]), if_neg (by simp [hws]), h4a]
    simp only
    rw [if_neg (by simp [h5a]; omega), hfiles]
    simp only
    rw [if_neg (by simp [FILE_COUNT_MAX])]
    unfold buildFiles
    rw [hnorm]
    simp only
    rw [if_neg (by omega), if_neg (by
      have : FILE_BYTES_MAX ≤ TOTAL_BYTES_MAX := by norm_num [FILE_BYTES_MAX, TOTAL_BYTES_MAX]
      omega)]
    rfl

/-- Witness for C4 at concrete payloads: a payload whose single file path
contains a `..` segment is rejected, and a well-formed single-file payload
is accepted with the content preserved byte-for-byte under the normalized
path. -/
theorem validateCommitPayload_witness :
    (validateCommitPayload
      ⟨some "me".data, some "r".data, some "main".data, some "ws".data,
        some "msg".data, some [("a/../b.http".data, some "GET /".data)]⟩ = none)
    ∧ (validateCommitPayload
      ⟨some "me".data, some "r".data, some "main".data, some "ws".data,
        some "msg".data, some [("users/List.http".data, some "GET /users".data)]⟩
      = some ⟨"me".data, "r".data, "main".data, "ws".data, "msg".data,
          [("users/List.http".data, "GET /users".data)]⟩) := by
  constructor
  · exact validateCommitPayload_rejects_dot_segments_and_preserves_content.1
      _ _ ("a/../b.http".data, some "GET /".data) rfl (by decide) (by decide)
  · exact validateCommitPayload_rejects_dot_segments_and_preserves_content.2
      _ "me".data "r".data "main".data "ws".data "msg".data "ws".data
      "users/List.http".data "GET /users".data "users/List.http".data
      (by decide) (by decide) (by decide) (by decide) (by decide) (by decide)
      (by decide) (by decide) (by decide) (by decide) (by decide) (by decide)
      (by decide) (by decide) (by decide) (by decide) rfl (by decide) (by decide)

/- ## apps/desktop/api/_lib/db.ts, oauth.ts and auth/github/callback.ts -/

/-- Embeds `GitHubAuthIntent` (db.ts). -/
inductive GitHubAuthIntent where
  | read
  | write
deriving DecidableEq, Repr

/-- One row of the `oauth_states` table: hashed state token (primary key),
PKCE verifier, requested intent, redirect target, expiry instant and the
nullable consumed-at timestamp.  Timestamps are abstract instants. -/
structure OAuthStateRow where
  stateHash : Str
  codeVerifier : Str
  intent : GitHubAuthIntent
  returnTo : Str
  expiresAt : Nat
  usedAt : Option Nat
deriving DecidableEq, Repr

/-- Embeds `OAuthStateRecord` (db.ts), the columns the consuming update
returns. -/
structure OAuthStateRecord where
  state_hash : Str
  code_verifier : Str
  intent : GitHubAuthIntent
  return_to : Str
deriving DecidableEq, Repr

/-- The WHERE clause of the consuming update: matching hash, never used,
not yet expired (`expires_at > NOW()`). -/
def oauthStateMatches (now : Nat) (stateHash : Str) (row : OAuthStateRow) : Bool :=
  decide (row.stateHash = stateHash) && decide (row.usedAt = none)
    && decide (now < row.expiresAt)

/-- Embeds `consumeOAuthState` (db.ts): the single SQL `UPDATE ... SET
used_at = NOW() WHERE state_hash = $1 AND used_at IS NULL AND expires_at >
NOW() RETURNING ...` against the `oauth_states` table, modelled as the
atomic step it is: every matching row is stamped, and the first returned
row (if any) is the result. -/
def consumeOAuthState (now : Nat) (table : List OAuthStateRow) (stateHash : Str) :
    Option OAuthStateRecord × List OAuthStateRow :=
  (((table.filter (oauthStateMatches now stateHash)).map
      (fun row => OAuthStateRecord.mk row.stateHash row.codeVerifier
        row.intent row.returnTo)).head?,
    table.map (fun row =>
      if oauthStateMatches now stateHash row then { row with usedAt := some now }
      else row))

/-- Embeds the handling of a failed consumption: `consumeOAuthStateByRawState`
returns `null` and the OAuth callback answers with the
invalid-or-expired-state error. -/
def callbackStateOutcome (result : Option OAuthStateRecord) :
    Except Str OAuthStateRecord :=
  match result with
  | none => .error "Invalid or expired OAuth state".data
  | some record => .ok record

theorem consumeOAuthState_fst_eq_none (now : Nat) (stateHash : Str)
    (table : List OAuthStateRow)
    (hempty : table.filter (oauthStateMatches now stateHash) = []) :
    (consumeOAuthState now table stateHash).fst = none := by
  unfold consumeOAuthState
  rw [hempty]
  rfl

/-- C3: consuming an OAuth state is a conditional update that succeeds only
while the row is unused and unexpired, so once a token has been consumed a
second consumption attempt with the same token returns nothing and is
answered with the invalid-or-expired-state error, at any later or earlier
instant (in particular still inside the TTL window). -/
theorem consumeOAuthState_single_use (table : List OAuthStateRow)
    (stateHash : Str) (now now' : Nat) (record : OAuthStateRecord)
    (hnodup : (table.map OAuthStateRow.stateHash).Nodup)
    (hfirst : (consumeOAuthState now table stateHash).fst = some record) :
    (consumeOAuthState now' (consumeOAuthState now table stateHash).snd
        stateHash).fst = none
    ∧ callbackStateOutcome
        (consumeOAuthState now' (consumeOAuthState now table stateHash).snd
          stateHash).fst
      = .error "Invalid or expired OAuth state".data := by
  have hrow : ∃ row ∈ table, oauthStateMatches now stateHash row = true := by
    unfold consumeOAuthState at hfirst
    simp only [List.head?_map] at hfirst
    rcases hh : (table.filter (oauthStateMatches now stateHash)).head? with _ | row
    · rw [hh] at hfirst
      cases hfirst
    · have hmem := List.mem_of_mem_head? hh
      exact ⟨row, List.mem_of_mem_filter hmem, List.of_mem_filter hmem⟩
  rcases hrow with ⟨row0, hmem0, hmatch0⟩
  have hfail : ∀ row' ∈ (consumeOAuthState now table stateHash).snd,
      oauthStateMatches now' stateHash row' = false := by
    intro row' hmem'
    unfold consumeOAuthState at hmem'
    simp only at hmem'
    rcases List.mem_map.mp hmem' with ⟨row, hmem, hrow'⟩
    by_cases hc : oauthStateMatches now stateHash row = true
    · rw [if_pos hc] at hrow'
      subst hrow'
      simp [oauthStateMatches]
    · rw [if_neg hc] at hrow'
      subst hrow'
      by_cases hh : row.stateHash = stateHash
      · have hm0 := hmatch0
        simp only [oauthStateMatches, Bool.and_eq_true, decide_eq_true_eq] at hm0
        have hhash : row.stateHash = row0.stateHash := by
          rw [hh, hm0.1.1]
        have : row = row0 :=
          List.inj_on_of_nodup_map hnodup hmem hmem0 hhash
        rw [this] at hc
        exact absurd hmatch0 hc
      · simp [oauthStateMatches, hh]
  have hempty :
      (consumeOAuthState now table stateHash).snd.filter
        (oauthStateMatches now' stateHash) = [] := by
    rw [List.filter_eq_nil_iff]
    intro row' hmem'
    simp [hfail row' hmem']
  have hnone := consumeOAuthState_fst_eq_none now' stateHash
    (consumeOAuthState now table stateHash).snd hempty
  exact ⟨hnone, by rw [hnone]; rfl⟩

/-- Witness for C3: a freshly issued state with hash `"h"` and expiry 10 is
consumed at instant 0, and the second attempt at instant 1 (still inside
the TTL window) fails with the invalid-or-expired-state error. -/
theorem consumeOAuthState_single_use_witness :
    (consumeOAuthState 1
      (consumeOAuthState 0
        [⟨"h".data, "v".data, .read, "/".data, 10, none⟩] "h".data).snd
      "h".data).fst = none := by
  exact (consumeOAuthState_single_use
    [⟨"h".data, "v".data, .read, "/".data, 10, none⟩] "h".data 0 1
    ⟨"h".data, "v".data, .read, "/".data⟩ (by decide) (by decide)).1

/- ## apps/desktop/api/_lib/github.ts - remote repository scanner -/

/-- Embeds `GitHubRepo` (github.ts); `ownerLogin` is `owner.login` and
`isPrivate` the `private` flag. -/
structure GitHubRepo where
  id : Nat
  name : Str
  ownerLogin : Str
  default_branch : Str
  isPrivate : Bool
deriving DecidableEq, Repr

/-- Embeds `GitTreeEntry` (github.ts). -/
structure GitTreeEntry where
  path : Str
  mode : Str
  type : Str
  sha : Str
deriving DecidableEq, Repr

/-- Embeds `GitTreeResponse` (github.ts). -/
structure GitTreeResponse where
  sha : Str
  truncated : Bool
  tree : List GitTreeEntry
deriving DecidableEq, Repr

/-- Embeds `WorkspaceRequestSnapshot` (github.ts). -/
structure WorkspaceRequestSnapshot where
  fileName : Str
  title : Str
  text : Str
deriving DecidableEq, Repr

/-- Embeds `WorkspaceCollectionSnapshot` (github.ts); also used for the
collection drafts the snapshot builder accumulates. -/
structure WorkspaceCollectionSnapshot where
  relativePath : Str
  name : Str
  iconSvg : Option Str
  requests : List WorkspaceRequestSnapshot
deriving DecidableEq, Repr

/-- Embeds `WorkspaceSnapshot` (github.ts). -/
structure WorkspaceSnapshot where
  owner : Str
  repo : Str
  branch : Str
  workspacePath : Str
  workspaceName : Str
  collections : List WorkspaceCollectionSnapshot
deriving DecidableEq, Repr

/-- Embeds `parseTitleFromFileName` (github.ts). -/
def parseTitleFromFileName (fileName : Str) : Str :=
  if ".http".data.isSuffixOf fileName then fileName.take (fileName.length - 5)
  else fileName

/-- Embeds `dirname` (github.ts): backslashes to forward slashes, then the
text before the last slash, `"."` when there is no slash or nothing before
it. -/
def dirname (path : Str) : Str :=
  let normalized := bs2fs path
  let tailPart := normalized.reverse.dropWhile (fun c => c ≠ '/')
  if tailPart = [] then ['.']
  else
    let value := (tailPart.drop 1).reverse
    if value = [] then ['.'] else value

/-- Embeds `basename` (github.ts): the text after the last slash. -/
def basename (path : Str) : Str :=
  ((bs2fs path).reverse.takeWhile (fun c => c ≠ '/')).reverse

/-- The fixed workspace marker path, `".eshttp/workspaces/"`. -/
def wsMarker : Str := ".eshttp/workspaces/".data

/-- The workspace root the `listWorkspaceRoots` loop body adds for one tree
entry, if any: a blob whose path ends in `.http`, starts with the marker
and has a nonempty first remainder field contributes
`marker ++ workspaceName`. -/
def rootCandidate (entry : GitTreeEntry) : Option Str :=
  if decide (entry.type = "blob".data) && ".http".data.isSuffixOf entry.path
      && wsMarker.isPrefixOf entry.path then
    match (splitOnChar '/' (entry.path.drop wsMarker.length)).head? with
    | none => none
    | some workspaceName =>
      if workspaceName = [] then none else some (wsMarker ++ workspaceName)
  else none

/-- Set insertion with JavaScript `Set` semantics: keep insertion order,
ignore duplicates. -/
def addIfAbsent (l : List Str) (s : Str) : List Str :=
  if s ∈ l then l else l ++ [s]

/-- Lexicographic comparison on scalar values, standing in for the
locale-sensitive `localeCompare` sort of the source; the embedded claims
only depend on the sorted list's membership. -/
def lexLe : Str → Str → Bool
  | [], _ => true
  | _ :: _, [] => false
  | a :: as, b :: bs => if a = b then lexLe as bs else decide (a.toNat < b.toNat)

/-- Insertion into a sorted list under a boolean comparison. -/
def insertSorted {α : Type} (le : α → α → Bool) (a : α) : List α → List α
  | [] => [a]
  | b :: bs => if le a b then a :: b :: bs else b :: insertSorted le a bs

/-- Insertion sort under a boolean comparison. -/
def sortByLe {α : Type} (le : α → α → Bool) (l : List α) : List α :=
  l.foldr (insertSorted le) []

/-- The loop body of `listWorkspaceRoots`: add the entry's workspace root
to the accumulated set, if it has one. -/
def rootStep (roots : List Str) (entry : GitTreeEntry) : List Str :=
  match rootCandidate entry with
  | none => roots
  | some root => addIfAbsent roots root

/-- Embeds `listWorkspaceRoots` (github.ts): collect the deduplicated
workspace roots of all request blobs below the marker and sort them. -/
def listWorkspaceRoots (tree : List GitTreeEntry) : List Str :=
  sortByLe lexLe (tree.foldl rootStep [])

/-- Embeds `relativeToWorkspace` (github.ts). -/
def relativeToWorkspace (workspacePath fullPath : Str) : Option Str :=
  if fullPath = workspacePath then some ['.']
  else if (workspacePath ++ ['/']).isPrefixOf fullPath then
    some (fullPath.drop (workspacePath.length + 1))
  else none

/-- Association lookup for the by-path blob map (`Map.get`). -/
def mapGet : List (Str × Str) → Str → Option Str
  | [], _ => none
  | (k, v) :: rest, key => if k = key then some v else mapGet rest key

/-- The blobs belonging to one workspace root (`relevantFiles` in
`buildWorkspaceSnapshot`). -/
def wsRelevantFiles (workspacePath : Str) (tree : List GitTreeEntry) :
    List GitTreeEntry :=
  tree.filter (fun entry =>
    decide (entry.type = "blob".data)
      && (relativeToWorkspace workspacePath entry.path).isSome)

/-- The path-to-sha map over the relevant files (`blobByPath`); `objSet`
matches `Map.set` replacing in place. -/
def wsBlobByPath (relevantFiles : List GitTreeEntry) : List (Str × Str) :=
  relevantFiles.foldl (fun m entry => objSet m entry.path entry.sha) []

/-- Append one request to the draft for its collection path, creating the
draft at the end in insertion order when absent (`collectionDraft` handling
in `buildWorkspaceSnapshot`). -/
def draftAppend (drafts : List WorkspaceCollectionSnapshot) (key : Str)
    (req : WorkspaceRequestSnapshot) : List WorkspaceCollectionSnapshot :=
  match drafts with
  | [] => [⟨key, key, none, [req]⟩]
  | d :: rest =>
    if d.relativePath = key then
      { d with requests := d.requests ++ [req] } :: rest
    else d :: draftAppend rest key req

/-- The request-grouping loop body of `buildWorkspaceSnapshot`: skip
non-request blobs, blobs at the workspace root itself, and blobs whose
parent directory fails normalization; otherwise fetch the blob text and
append the request to its collection draft. -/
def wsDraftStep (blobText : Str → Str) (workspacePath : Str)
    (blobByPath : List (Str × Str)) (drafts : List WorkspaceCollectionSnapshot)
    (entry : GitTreeEntry) : List WorkspaceCollectionSnapshot :=
  if ¬ ".http".data.isSuffixOf entry.path then drafts
  else
    match relativeToWorkspace workspacePath entry.path with
    | none => drafts
    | some rel =>
      if rel = [] ∨ rel = ['.'] then drafts
      else
        match normalizeRelativePath (dirname rel) with
        | none => drafts
        | some collectionPath =>
          match mapGet blobByPath entry.path with
          | none => drafts
          | some sha =>
            draftAppend drafts collectionPath
              ⟨basename rel, parseTitleFromFileName (basename rel), blobText sha⟩

/-- The collection drafts of one workspace root. -/
def wsDrafts (blobText : Str → Str) (workspacePath : Str)
    (blobByPath : List (Str × Str)) (relevantFiles : List GitTreeEntry) :
    List WorkspaceCollectionSnapshot :=
  relevantFiles.foldl (wsDraftStep blobText workspacePath blobByPath) []

/-- The icon-attachment pass of `buildWorkspaceSnapshot`: look for a
conventional `icon.svg` sibling of each collection. -/
def wsAttachIcon (blobText : Str → Str) (workspacePath : Str)
    (blobByPath : List (Str × Str)) (draft : WorkspaceCollectionSnapshot) :
    WorkspaceCollectionSnapshot :=
  let iconPath :=
    if draft.relativePath = ['.'] then workspacePath ++ "/icon.svg".data
    else workspacePath ++ '/' :: draft.relativePath ++ "/icon.svg".data
  match mapGet blobByPath iconPath with
  | none => draft
  | some iconSha => { draft with iconSvg := some (blobText iconSha) }

/-- Embeds `buildWorkspaceSnapshot` (github.ts).  The network blob fetch by
content hash is the `blobText` oracle; the per-scan sha cache of the source
does not change results because the oracle is a function of the sha. -/
def buildWorkspaceSnapshot (blobText : Str → Str) (repo : GitHubRepo)
    (workspacePath : Str) (tree : List GitTreeEntry) : Option WorkspaceSnapshot :=
  let relevantFiles := wsRelevantFiles workspacePath tree
  if relevantFiles.isEmpty then none
  else
    let blobByPath := wsBlobByPath relevantFiles
    let drafts := wsDrafts blobText workspacePath blobByPath relevantFiles
    let collections :=
      sortByLe (fun l r => lexLe l.relativePath r.relativePath)
        ((drafts.map (wsAttachIcon blobText workspacePath blobByPath)).map
          (fun d =>
            { d with requests :=
                sortByLe (fun a b => lexLe a.fileName b.fileName) d.requests }))
    if collections.isEmpty then none
    else
      some ⟨repo.ownerLogin, repo.name, repo.default_branch, workspacePath,
        basename workspacePath, collections⟩

/-- Embeds the per-repository body of `extractWorkspacesFromRepos`
(github.ts): skip trees the remote API reports truncated, otherwise build
one snapshot per identified workspace root, dropping empty roots. -/
def scanRepo (blobText : Str → Str) (repo : GitHubRepo)
    (treeRes : GitTreeResponse) : List WorkspaceSnapshot :=
  if treeRes.truncated then []
  else
    (listWorkspaceRoots treeRes.tree).filterMap
      (fun workspacePath => buildWorkspaceSnapshot blobText repo workspacePath treeRes.tree)

/-- Embeds `extractWorkspacesFromRepos` (github.ts) over the already
fetched repository list with each repository's tree response. -/
def extractWorkspacesFromRepos (blobText : Str → Str)
    (repos : List (GitHubRepo × GitTreeResponse)) : List WorkspaceSnapshot :=
  (repos.map (fun rt => scanRepo blobText rt.1 rt.2)).flatten

/-- C8: a repository whose tree response is marked truncated contributes no
workspace snapshot at all: its scan result is empty, and removing it from
the scanned repository list leaves the overall scan output unchanged,
regardless of the blobs its truncated tree contains. -/
theorem scanRepo_truncated_empty (blobText : Str → Str) (repo : GitHubRepo)
    (treeRes : GitTreeResponse) (pre post : List (GitHubRepo × GitTreeResponse))
    (htrunc : treeRes.truncated = true) :
    scanRepo blobText repo treeRes = []
    ∧ extractWorkspacesFromRepos blobText (pre ++ (repo, treeRes) :: post)
      = extractWorkspacesFromRepos blobText (pre ++ post) := by
  have h1 : scanRepo blobText repo treeRes = [] := by
    unfold scanRepo
    rw [htrunc]
    rfl
  refine ⟨h1, ?_⟩
  unfold extractWorkspacesFromRepos
  simp [h1]

/-- Witness for C8: a tree response marked truncated that contains a
well-placed request blob still yields no workspace and drops out of the
overall scan. -/
theorem scanRepo_truncated_empty_witness :
    scanRepo (fun _ => []) ⟨1, "r".data, "o".data, "main".data, false⟩
      ⟨"t".data, true,
        [⟨".eshttp/workspaces/ws/a/List.http".data, "100644".data, "blob".data,
          "s1".data⟩]⟩ = []
    ∧ extractWorkspacesFromRepos (fun _ => [])
        [(⟨1, "r".data, "o".data, "main".data, false⟩,
          ⟨"t".data, true,
            [⟨".eshttp/workspaces/ws/a/List.http".data, "100644".data, "blob".data,
              "s1".data⟩]⟩)]
      = extractWorkspacesFromRepos (fun _ => []) [] := by
  exact scanRepo_truncated_empty (fun _ => []) _ _ [] [] (by decide)

theorem bs2fs_eq_self_of_no_bs (s : Str) (h : ∀ c ∈ s, c ≠ '\\') :
    bs2fs s = s := by
  induction s with
  | nil => rfl
  | cons c cs ih =>
    have hc : c ≠ '\\' := h c (by simp)
    have hrest := ih (fun x hx => h x (by simp [hx]))
    simp only [bs2fs, List.map_cons] at hrest ⊢
    rw [if_neg hc, hrest]

theorem dirname_eq_dot_of_no_sep (rel : Str)
    (h : ∀ c ∈ rel, c ≠ '/' ∧ c ≠ '\\') : dirname rel = ['.'] := by
  have h1 : bs2fs rel = rel := bs2fs_eq_self_of_no_bs rel (fun c hc => (h c hc).2)
  have h2 : rel.reverse.dropWhile (fun c => decide (c ≠ '/')) = [] :=
    List.dropWhile_eq_nil_iff.mpr
      (fun a ha => decide_eq_true ((h a (List.mem_reverse.mp ha)).1))
  simp only [dirname, h1, h2]
  rfl

theorem normalizeRelativePath_dot_eq_none : normalizeRelativePath ['.'] = none := by
  decide

theorem foldl_eq_init_of_skip {α β : Type} (step : β → α → β) (l : List α)
    (h : ∀ a ∈ l, ∀ b, step b a = b) : ∀ b0, l.foldl step b0 = b0 := by
  induction l with
  | nil => intro b0; rfl
  | cons a as ih =>
    intro b0
    rw [List.foldl_cons, h a (by simp)]
    exact ih (fun x hx b => h x (by simp [hx]) b) b0

theorem mem_insertSorted_iff {α : Type} (le : α → α → Bool) (a x : α)
    (l : List α) : x ∈ insertSorted le a l ↔ x = a ∨ x ∈ l := by
  induction l with
  | nil => simp [insertSorted]
  | cons b bs ih =>
    simp only [insertSorted]
    split
    · simp
    · simp only [List.mem_cons, ih]
      tauto

theorem mem_sortByLe_iff {α : Type} (le : α → α → Bool) (x : α) (l : List α) :
    x ∈ sortByLe le l ↔ x ∈ l := by
  induction l with
  | nil => simp [sortByLe]
  | cons a as ih =>
    simp only [sortByLe, List.foldr_cons] at ih ⊢
    rw [mem_insertSorted_iff, ih, List.mem_cons]

theorem mem_rootStep_of_mem (roots : List Str) (entry : GitTreeEntry) (x : Str)
    (h : x ∈ roots) : x ∈ rootStep roots entry := by
  unfold rootStep
  rcases rootCandidate entry with _ | root
  · exact h
  · by_cases hs : root ∈ roots
    · simpa [addIfAbsent, hs] using h
    · simp only [addIfAbsent, if_neg hs]
      exact List.mem_append_left _ h

theorem mem_foldl_rootStep_of_mem (l : List GitTreeEntry) (x : Str) :
    ∀ acc, x ∈ acc → x ∈ l.foldl rootStep acc := by
  induction l with
  | nil => intro acc h; exact h
  | cons e es ih =>
    intro acc h
    rw [List.foldl_cons]
    exact ih _ (mem_rootStep_of_mem acc e x h)

theorem mem_foldl_rootStep_of_candidate (l : List GitTreeEntry) (x : Str)
    (entry : GitTreeEntry) (hc : rootCandidate entry = some x) :
    ∀ acc, entry ∈ l → x ∈ l.foldl rootStep acc := by
  induction l with
  | nil => intro acc h; cases h
  | cons e es ih =>
    intro acc hmem
    rw [List.foldl_cons]
    rcases List.mem_cons.mp hmem with heq | hmem'
    · subst heq
      apply mem_foldl_rootStep_of_mem
      show x ∈ rootStep acc entry
      unfold rootStep
      rw [hc]
      by_cases hs : x ∈ acc
      · simp [addIfAbsent, hs]
      · simp [addIfAbsent, hs]
    · exact ih _ hmem'

theorem splitOnChar_append_sep (name rest : Str) (h : ∀ c ∈ name, c ≠ '/') :
    splitOnChar '/' (name ++ '/' :: rest) = name :: splitOnChar '/' rest := by
  induction name with
  | nil => simp [splitOnChar]
  | cons c cs ih =>
    have hc : c ≠ '/' := h c (by simp)
    have hrest := ih (fun x hx => h x (by simp [hx]))
    simp only [List.cons_append, splitOnChar, if_neg hc, List.append_eq]
    rw [hrest]

theorem rootCandidate_eq_some (entry : GitTreeEntry) (name file : Str)
    (htype : entry.type = "blob".data)
    (hpath : entry.path = wsMarker ++ name ++ '/' :: file)
    (hname : name ≠ []) (hnosl : ∀ c ∈ name, c ≠ '/')
    (hhttp : ".http".data.isSuffixOf file = true) :
    rootCandidate entry = some (wsMarker ++ name) := by
  have hsuffix : ".http".data.isSuffixOf entry.path = true := by
    rw [List.isSuffixOf_iff_suffix] at hhttp ⊢
    rw [hpath]
    have hfile : file <:+ wsMarker ++ name ++ '/' :: file := by
      have : wsMarker ++ name ++ '/' :: file = (wsMarker ++ name ++ ['/']) ++ file := by
        simp
      rw [this]
      exact List.suffix_append _ _
    exact hhttp.trans hfile
  have hpfx : wsMarker.isPrefixOf entry.path = true := by
    rw [List.isPrefixOf_iff_prefix, hpath]
    have : wsMarker ++ name ++ '/' :: file = wsMarker ++ (name ++ '/' :: file) := by
      simp
    rw [this]
    exact List.prefix_append _ _
  have hdrop : entry.path.drop wsMarker.length = name ++ '/' :: file := by
    rw [hpath]
    have : wsMarker ++ name ++ '/' :: file = wsMarker ++ (name ++ '/' :: file) := by
      simp
    rw [this]
    exact List.drop_left _ _
  unfold rootCandidate
  rw [if_pos (by simp [htype, hsuffix, hpfx])]
  rw [hdrop, splitOnChar_append_sep name file hnosl]
  simp [hname]

theorem wsDraftStep_skip (blobText : Str → Str) (workspacePath : Str)
    (blobByPath : List (Str × Str)) (entry : GitTreeEntry)
    (hdir : ".http".data.isSuffixOf entry.path = true →
      ∀ rel, relativeToWorkspace workspacePath entry.path = some rel →
        ∀ c ∈ rel, c ≠ '/' ∧ c ≠ '\\') :
    ∀ d, wsDraftStep blobText workspacePath blobByPath d entry = d := by
  intro d
  unfold wsDraftStep
  by_cases hsuf : ".http".data.isSuffixOf entry.path = true
  · rw [if_neg (by simp [hsuf])]
    rcases hrel : relativeToWorkspace workspacePath entry.path with _ | rel
    · rfl
    · simp only
      split
      · rfl
      · rw [dirname_eq_dot_of_no_sep rel (hdir hsuf rel hrel),
          normalizeRelativePath_dot_eq_none]
  · rw [if_pos (by simp [hsuf])]

/-- C10: a request blob sitting directly in a workspace root identifies the
root, yet when every request blob below that root sits directly in it, the
snapshot builder resolves zero collections for the workspace and returns
nothing, so the scan omits the workspace entirely (its parent directory
`"."` fails relative-path normalization). -/
theorem workspaceRoot_direct_blobs_yield_no_snapshot (blobText : Str → Str)
    (repo : GitHubRepo) (tree : List GitTreeEntry) (entry : GitTreeEntry)
    (name file : Str)
    (hmem : entry ∈ tree) (htype : entry.type = "blob".data)
    (hpath : entry.path = wsMarker ++ name ++ '/' :: file)
    (hname : name ≠ []) (hnosl : ∀ c ∈ name, c ≠ '/')
    (hhttp : ".http".data.isSuffixOf file = true)
    (hdirect : ∀ e ∈ tree, e.type = "blob".data →
      ".http".data.isSuffixOf e.path = true →
      ∀ c ∈ (relativeToWorkspace (wsMarker ++ name) e.path).getD [],
        c ≠ '/' ∧ c ≠ '\\') :
    (wsMarker ++ name) ∈ listWorkspaceRoots tree
    ∧ buildWorkspaceSnapshot blobText repo (wsMarker ++ name) tree = none := by
  constructor
  · unfold listWorkspaceRoots
    rw [mem_sortByLe_iff]
    exact mem_foldl_rootStep_of_candidate tree (wsMarker ++ name) entry
      (rootCandidate_eq_some entry name file htype hpath hname hnosl hhttp) [] hmem
  · have hdrafts : wsDrafts blobText (wsMarker ++ name)
        (wsBlobByPath (wsRelevantFiles (wsMarker ++ name) tree))
        (wsRelevantFiles (wsMarker ++ name) tree) = [] := by
      unfold wsDrafts
      apply foldl_eq_init_of_skip
      intro e he d
      have hetree : e ∈ tree := List.mem_of_mem_filter he
      have hcond := List.of_mem_filter he
      simp only [Bool.and_eq_true, decide_eq_true_eq] at hcond
      apply wsDraftStep_skip
      intro hsuf rel hrel c hc
      have hget : (relativeToWorkspace (wsMarker ++ name) e.path).getD [] = rel := by
        rw [hrel]
        rfl
      exact hdirect e hetree hcond.1 hsuf c (hget ▸ hc)
    by_cases hre : (wsRelevantFiles (wsMarker ++ name) tree).isEmpty
    · simp [buildWorkspaceSnapshot, hre]
    · simp [buildWorkspaceSnapshot, hre, hdrafts, sortByLe]

/-- Witness for C10: a tree holding exactly one request blob directly in a
workspace root identifies the root, but the snapshot builder returns
nothing for it. -/
theorem workspaceRoot_direct_blobs_yield_no_snapshot_witness :
    (wsMarker ++ "ws".data) ∈ listWorkspaceRoots
      [⟨".eshttp/workspaces/ws/List.http".data, "100644".data, "blob".data,
        "s1".data⟩]
    ∧ buildWorkspaceSnapshot (fun _ => [])
        ⟨1, "r".data, "o".data, "main".data, false⟩ (wsMarker ++ "ws".data)
        [⟨".eshttp/workspaces/ws/List.http".data, "100644".data, "blob".data,
          "s1".data⟩] = none := by
  exact workspaceRoot_direct_blobs_yield_no_snapshot (fun _ => [])
    ⟨1, "r".data, "o".data, "main".data, false⟩
    [⟨".eshttp/workspaces/ws/List.http".data, "100644".data, "blob".data,
      "s1".data⟩]
    ⟨".eshttp/workspaces/ws/List.http".data, "100644".data, "blob".data,
      "s1".data⟩
    "ws".data "List.http".data (by decide) (by decide) (by decide) (by decide)
    (by decide) (by decide) (by decide)

/- ## apps/desktop/src/data/idb.ts and collectionsRepository.ts -/

/-- Embeds `SyncOpType` (idb.ts). -/
inductive SyncOpType where
  | write
deriving DecidableEq, Repr

/-- Embeds `SyncQueueRecord` (idb.ts): one pending write with its optional
last-error string. -/
structure SyncQueueRecord where
  id : Str
  importId : Str
  type : SyncOpType
  relativePath : Str
  content : Str
  createdAt : Nat
  error : Option Str := none
deriving DecidableEq, Repr

/-- Embeds `listSyncQueue` (idb.ts): all queue entries sorted by creation
time, oldest first (stable, as JavaScript sort is). -/
def listSyncQueue (store : List SyncQueueRecord) : List SyncQueueRecord :=
  List.insertionSort (fun a b => a.createdAt ≤ b.createdAt) store

/-- Embeds `putSyncOp` (idb.ts): an IndexedDB put keyed by `id`, replacing
the entry with that key in place or adding the record. -/
def putSyncOp : List SyncQueueRecord → SyncQueueRecord → List SyncQueueRecord
  | [], record => [record]
  | entry :: rest, record =>
    if entry.id = record.id then record :: rest
    else entry :: putSyncOp rest record

/-- Embeds `deleteSyncOp` (idb.ts). -/
def deleteSyncOp (store : List SyncQueueRecord) (id : Str) :
    List SyncQueueRecord :=
  store.filter (fun entry => entry.id ≠ id)

/-- The per-entry body of `flushSyncQueue` (collectionsRepository.ts): a
successful `applySyncWrite` (outcome given by the `apply` oracle over the
entry's owning-import id, path and content) deletes the entry, a failure
rewrites the entry under the same id with the caught message attached. -/
def flushApplyStep (apply : Str → Str → Str → Except Str Unit)
    (store : List SyncQueueRecord) (item : SyncQueueRecord) :
    List SyncQueueRecord :=
  match apply item.importId item.relativePath item.content with
  | .ok _ => deleteSyncOp store item.id
  | .error message => putSyncOp store { item with error := some message }

/-- Embeds `flushSyncQueue` (collectionsRepository.ts): list the queue
once, oldest first, then drain it sequentially. -/
def flushSyncQueue (apply : Str → Str → Str → Except Str Unit)
    (store : List SyncQueueRecord) : List SyncQueueRecord :=
  (listSyncQueue store).foldl (flushApplyStep apply) store

theorem mem_putSyncOp_self (store : List SyncQueueRecord)
    (record : SyncQueueRecord) : record ∈ putSyncOp store record := by
  induction store with
  | nil => simp [putSyncOp]
  | cons entry rest ih =>
    unfold putSyncOp
    split
    · simp
    · simp [ih]

theorem mem_putSyncOp_of_ne (store : List SyncQueueRecord)
    (record entry : SyncQueueRecord) (hmem : entry ∈ store)
    (hne : entry.id ≠ record.id) : entry ∈ putSyncOp store record := by
  induction store with
  | nil => cases hmem
  | cons e rest ih =>
    rcases List.mem_cons.mp hmem with heq | hmem'
    · subst heq
      unfold putSyncOp
      rw [if_neg hne]
      simp
    · unfold putSyncOp
      split
      · simp [hmem']
      · simp [ih hmem']

theorem eq_or_mem_of_mem_putSyncOp (store : List SyncQueueRecord)
    (record entry : SyncQueueRecord) (hmem : entry ∈ putSyncOp store record) :
    entry = record ∨ entry ∈ store := by
  induction store with
  | nil => simpa [putSyncOp] using hmem
  | cons e rest ih =>
    unfold putSyncOp at hmem
    split at hmem
    · rcases List.mem_cons.mp hmem with heq | hmem'
      · exact .inl heq
      · exact .inr (List.mem_cons_of_mem _ hmem')
    · rcases List.mem_cons.mp hmem with heq | hmem'
      · exact .inr (heq ▸ List.mem_cons_self _ _)
      · rcases ih hmem' with h | h
        · exact .inl h
        · exact .inr (List.mem_cons_of_mem _ h)

theorem flushApplyStep_ok (apply : Str → Str → Str → Except Str Unit)
    (store : List SyncQueueRecord) (item : SyncQueueRecord) (u : Unit)
    (h : apply item.importId item.relativePath item.content = .ok u) :
    flushApplyStep apply store item = deleteSyncOp store item.id := by
  unfold flushApplyStep
  rw [h]

theorem flushApplyStep_err (apply : Str → Str → Str → Except Str Unit)
    (store : List SyncQueueRecord) (item : SyncQueueRecord) (message : Str)
    (h : apply item.importId item.relativePath item.content = .error message) :
    flushApplyStep apply store item
      = putSyncOp store { item with error := some message } := by
  unfold flushApplyStep
  rw [h]

theorem mem_flushApplyStep (apply : Str → Str → Str → Except Str Unit)
    (store : List SyncQueueRecord) (item entry : SyncQueueRecord)
    (hmem : entry ∈ store) (hne : entry.id ≠ item.id) :
    entry ∈ flushApplyStep apply store item := by
  rcases hap : apply item.importId item.relativePath item.content with msg | u
  · rw [flushApplyStep_err apply store item msg hap]
    exact mem_putSyncOp_of_ne _ _ _ hmem hne
  · rw [flushApplyStep_ok apply store item u hap]
    simp only [deleteSyncOp, List.mem_filter]
    exact ⟨hmem, by simpa using hne⟩

theorem flushFold_preserves_mem (apply : Str → Str → Str → Except Str Unit)
    (l : List SyncQueueRecord) (entry : SyncQueueRecord) :
    ∀ store, entry ∈ store → (∀ i ∈ l, i.id ≠ entry.id) →
      entry ∈ l.foldl (flushApplyStep apply) store := by
  induction l with
  | nil => intro store h _; exact h
  | cons item rest ih =>
    intro store hmem hids
    rw [List.foldl_cons]
    apply ih _ _ (fun i hi => hids i (by simp [hi]))
    exact mem_flushApplyStep apply store item entry hmem
      (fun h => hids item (by simp) h.symm)

theorem flushFold_no_id (apply : Str → Str → Str → Except Str Unit)
    (l : List SyncQueueRecord) (x : Str) :
    ∀ store, (∀ e ∈ store, e.id ≠ x) → (∀ i ∈ l, i.id ≠ x) →
      ∀ e ∈ l.foldl (flushApplyStep apply) store, e.id ≠ x := by
  induction l with
  | nil => intro store hstore _ e he; exact hstore e he
  | cons item rest ih =>
    intro store hstore hids
    rw [List.foldl_cons]
    apply ih _ _ (fun i hi => hids i (by simp [hi]))
    intro e he
    rcases hap : apply item.importId item.relativePath item.content with msg | u
    · rw [flushApplyStep_err apply store item msg hap] at he
      rcases eq_or_mem_of_mem_putSyncOp _ _ _ he with heq | hmem
      · subst heq
        exact hids item (by simp)
      · exact hstore e hmem
    · rw [flushApplyStep_ok apply store item u hap] at he
      exact hstore e (List.mem_of_mem_filter he)

/-- C2: over any queue whose ids are distinct (the IndexedDB store is
keyed by id), the flush deletes an entry exactly when its apply succeeded:
on success no entry with that id survives, and on failure the same entry
is rewritten under the same id with the caught error message attached —
entries are never silently dropped. -/
theorem flushSyncQueue_deletes_iff_success
    (apply : Str → Str → Str → Except Str Unit)
    (store : List SyncQueueRecord) (item : SyncQueueRecord)
    (hnodup : (store.map SyncQueueRecord.id).Nodup) (hmem : item ∈ store) :
    (∀ u : Unit, apply item.importId item.relativePath item.content = .ok u →
      ∀ e ∈ flushSyncQueue apply store, e.id ≠ item.id)
    ∧ (∀ message : Str,
        apply item.importId item.relativePath item.content = .error message →
          { item with error := some message } ∈ flushSyncQueue apply store) := by
  have hperm : List.Perm (listSyncQueue store) store :=
    List.perm_insertionSort _ store
  have hmemL : item ∈ listSyncQueue store := hperm.mem_iff.mpr hmem
  have hnodupL : ((listSyncQueue store).map SyncQueueRecord.id).Nodup :=
    ((hperm.map SyncQueueRecord.id).nodup_iff).mpr hnodup
  rcases List.append_of_mem hmemL with ⟨l1, l2, hsplit⟩
  have hids : (∀ i ∈ l1, i.id ≠ item.id) ∧ (∀ i ∈ l2, i.id ≠ item.id) := by
    rw [hsplit, List.map_append, List.map_cons, List.nodup_append] at hnodupL
    obtain ⟨h1, h2, hdisj⟩ := hnodupL
    rw [List.nodup_cons] at h2
    constructor
    · intro i hi heq
      exact hdisj (List.mem_map_of_mem _ hi)
        (by rw [heq]; exact List.mem_cons_self _ _)
    · intro i hi heq
      exact h2.1 (heq ▸ List.mem_map_of_mem SyncQueueRecord.id hi)
  constructor
  · intro u hok e he
    unfold flushSyncQueue at he
    rw [hsplit, List.foldl_append, List.foldl_cons,
      flushApplyStep_ok apply _ item u hok] at he
    refine flushFold_no_id apply l2 item.id _ ?_ hids.2 e he
    intro x hx
    have := List.of_mem_filter hx
    simpa using this
  · intro message herr
    unfold flushSyncQueue
    rw [hsplit, List.foldl_append, List.foldl_cons,
      flushApplyStep_err apply _ item message herr]
    exact flushFold_preserves_mem apply l2 _ _
      (mem_putSyncOp_self _ _) (fun i hi => hids.2 i hi)

/-- Witness for C2 at a concrete queue: the entry whose apply succeeds is
gone after the flush, and the entry whose apply fails survives under its
id with the error message attached. -/
theorem flushSyncQueue_deletes_iff_success_witness :
    (∀ e ∈ flushSyncQueue
        (fun importId _ _ =>
          if importId = "a".data then Except.ok () else Except.error "boom".data)
        [⟨"1".data, "a".data, .write, "p1".data, "c1".data, 1, none⟩,
          ⟨"2".data, "b".data, .write, "p2".data, "c2".data, 2, none⟩],
      e.id ≠ "1".data)
    ∧ (⟨"2".data, "b".data, .write, "p2".data, "c2".data, 2, some "boom".data⟩
        ∈ flushSyncQueue
          (fun importId _ _ =>
            if importId = "a".data then Except.ok () else Except.error "boom".data)
          [⟨"1".data, "a".data, .write, "p1".data, "c1".data, 1, none⟩,
            ⟨"2".data, "b".data, .write, "p2".data, "c2".data, 2, none⟩]) := by
  constructor
  · exact (flushSyncQueue_deletes_iff_success
      (fun importId _ _ =>
        if importId = "a".data then Except.ok () else Except.error "boom".data)
      [⟨"1".data, "a".data, .write, "p1".data, "c1".data, 1, none⟩,
        ⟨"2".data, "b".data, .write, "p2".data, "c2".data, 2, none⟩]
      ⟨"1".data, "a".data, .write, "p1".data, "c1".data, 1, none⟩
      (by decide) (by decide)).1 () (by rfl)
  · exact (flushSyncQueue_deletes_iff_success
      (fun importId _ _ =>
        if importId = "a".data then Except.ok () else Except.error "boom".data)
      [⟨"1".data, "a".data, .write, "p1".data, "c1".data, 1, none⟩,
        ⟨"2".data, "b".data, .write, "p2".data, "c2".data, 2, none⟩]
      ⟨"2".data, "b".data, .write, "p2".data, "c2".data, 2, none⟩
      (by decide) (by decide)).2 "boom".data (by rfl)

/- ## spec-modelled storage-aware sync flush (pendingPaths tracking) -/

/-- Deduplicated append: add the path only when it is not yet present. -/
def appendDedup (paths : List Str) (path : Str) : List Str :=
  if path ∈ paths then paths else paths ++ [path]

/-- Modelled from the spec: the flush's per-import bookkeeping of the
storage-aware repository version, whose source is not in the tree (only
its tests and dev docs are).  Per the spec, only for `storageKind = git`
the applied entry's path is appended to the import's `pendingPaths`,
deduplicated; every other import is left untouched. -/
def pendingUpdater (importId : Str) (path : Str) (imp : ImportRecord) :
    ImportRecord :=
  if imp.id = importId ∧ imp.storageKind = some .git then
    { imp with pendingPaths := appendDedup imp.pendingPaths path }
  else imp

/-- Update the import table after one successful apply. -/
def recordPendingPath (imports : List ImportRecord) (importId : Str)
    (path : Str) : List ImportRecord :=
  imports.map (pendingUpdater importId path)

/-- The store state the spec-modelled flush acts on: the import table and
the sync queue. -/
structure RepoState where
  imports : List ImportRecord
  syncQueue : List SyncQueueRecord

/-- Modelled from the spec: one entry of the storage-aware flush.  On a
successful apply the entry is deleted and the path is recorded on its
git-storage import; on failure the entry is rewritten with the error. -/
def flushSpecStep (apply : Str → Str → Str → Except Str Unit)
    (state : RepoState) (item : SyncQueueRecord) : RepoState :=
  match apply item.importId item.relativePath item.content with
  | .ok _ =>
    ⟨recordPendingPath state.imports item.importId item.relativePath,
      deleteSyncOp state.syncQueue item.id⟩
  | .error message =>
    ⟨state.imports, putSyncOp state.syncQueue { item with error := some message }⟩

/-- Modelled from the spec: the storage-aware `flushSyncQueue`, draining
the listed queue oldest first. -/
def flushSyncQueueSpec (apply : Str → Str → Str → Except Str Unit)
    (state : RepoState) : RepoState :=
  (listSyncQueue state.syncQueue).foldl (flushSpecStep apply) state

/-- N successive flush rounds: before each round the queue holds exactly
that round's freshly queued writes (the previous round drained it). -/
def flushRounds (apply : Str → Str → Str → Except Str Unit) :
    List (List SyncQueueRecord) → RepoState → RepoState
  | [], state => state
  | batch :: rest, state =>
    flushRounds apply rest
      (flushSyncQueueSpec apply { state with syncQueue := batch })

/-- Resolve an import record by id (`getImportById`). -/
def getImport (imports : List ImportRecord) (importId : Str) :
    Option ImportRecord :=
  imports.find? (fun imp => imp.id = importId)

/-- The pendingPaths effect of one queue entry on one import's path list. -/
def pendStep (importId : Str) (paths : List Str) (item : SyncQueueRecord) :
    List Str :=
  if item.importId = importId then appendDedup paths item.relativePath
  else paths

theorem pendingUpdater_id (importId path : Str) (imp : ImportRecord) :
    (pendingUpdater importId path imp).id = imp.id := by
  unfold pendingUpdater
  split <;> rfl

theorem getImport_map (f : ImportRecord → ImportRecord)
    (hid : ∀ imp, (f imp).id = imp.id) (imports : List ImportRecord)
    (importId : Str) :
    getImport (imports.map f) importId = (getImport imports importId).map f := by
  induction imports with
  | nil => rfl
  | cons imp rest ih =>
    by_cases hc : imp.id = importId
    · simp only [getImport, List.map_cons] at ih ⊢
      rw [List.find?_cons_of_pos _ (by simp [hid, hc]),
        List.find?_cons_of_pos _ (by simp [hc])]
      rfl
    · simp only [getImport, List.map_cons] at ih ⊢
      rw [List.find?_cons_of_neg _ (by simp [hid, hc]),
        List.find?_cons_of_neg _ (by simp [hc])]
      exact ih

theorem getImport_recordPendingPath (imports : List ImportRecord)
    (importId path iid : Str) :
    getImport (recordPendingPath imports importId path) iid
      = (getImport imports iid).map (pendingUpdater importId path) :=
  getImport_map _ (pendingUpdater_id importId path) imports iid

theorem flushSpecFold_git (apply : Str → Str → Str → Except Str Unit)
    (l : List SyncQueueRecord) (iid : Str) :
    ∀ (state : RepoState) (r : ImportRecord),
      getImport state.imports iid = some r → r.id = iid →
      r.storageKind = some .git →
      (∀ item ∈ l, apply item.importId item.relativePath item.content = .ok ()) →
      getImport (l.foldl (flushSpecStep apply) state).imports iid
        = some { r with pendingPaths := l.foldl (pendStep iid) r.pendingPaths } := by
  induction l with
  | nil =>
    intro state r hfind _ _ _
    exact hfind
  | cons item rest ih =>
    intro state r hfind hid hgit hok
    rw [List.foldl_cons, List.foldl_cons]
    have hstep : flushSpecStep apply state item
        = ⟨recordPendingPath state.imports item.importId item.relativePath,
            deleteSyncOp state.syncQueue item.id⟩ := by
      unfold flushSpecStep
      rw [hok item (by simp)]
    rw [hstep]
    by_cases hc : item.importId = iid
    · have hfind' : getImport
          (recordPendingPath state.imports item.importId item.relativePath) iid
          = some { r with pendingPaths := appendDedup r.pendingPaths item.relativePath } := by
        rw [getImport_recordPendingPath, hfind]
        simp only [Option.map_some']
        unfold pendingUpdater
        rw [if_pos ⟨by rw [hid, hc], hgit⟩]
      have hres := ih
        ⟨recordPendingPath state.imports item.importId item.relativePath,
          deleteSyncOp state.syncQueue item.id⟩
        { r with pendingPaths := appendDedup r.pendingPaths item.relativePath }
        hfind' hid hgit (fun i hi => hok i (by simp [hi]))
      rw [hres]
      rw [show pendStep iid r.pendingPaths item
          = appendDedup r.pendingPaths item.relativePath from by
        unfold pendStep; rw [if_pos hc]]
    · have hfind' : getImport
          (recordPendingPath state.imports item.importId item.relativePath) iid
          = some r := by
        rw [getImport_recordPendingPath, hfind]
        simp only [Option.map_some']
        unfold pendingUpdater
        rw [if_neg (fun h => hc ((h.1.symm.trans hid)))]
      have hres := ih
        ⟨recordPendingPath state.imports item.importId item.relativePath,
          deleteSyncOp state.syncQueue item.id⟩
        r hfind' hid hgit (fun i hi => hok i (by simp [hi]))
      rw [hres]
      rw [show pendStep iid r.pendingPaths item = r.pendingPaths from by
        unfold pendStep; rw [if_neg hc]]

theorem flushSpecFold_nonGit (apply : Str → Str → Str → Except Str Unit)
    (l : List SyncQueueRecord) (iid : Str) :
    ∀ (state : RepoState) (r : ImportRecord),
      getImport state.imports iid = some r → r.storageKind ≠ some .git →
      getImport (l.foldl (flushSpecStep apply) state).imports iid = some r := by
  induction l with
  | nil => intro state r hfind _; exact hfind
  | cons item rest ih =>
    intro state r hfind hgit
    rw [List.foldl_cons]
    rcases hap : apply item.importId item.relativePath item.content with msg | u
    · have hstep : flushSpecStep apply state item
          = ⟨state.imports,
              putSyncOp state.syncQueue { item with error := some msg }⟩ := by
        unfold flushSpecStep
        rw [hap]
      rw [hstep]
      exact ih _ r hfind hgit
    · have hstep : flushSpecStep apply state item
          = ⟨recordPendingPath state.imports item.importId item.relativePath,
              deleteSyncOp state.syncQueue item.id⟩ := by
        unfold flushSpecStep
        rw [hap]
      rw [hstep]
      apply ih _ r _ hgit
      rw [getImport_recordPendingPath, hfind]
      simp only [Option.map_some']
      unfold pendingUpdater
      rw [if_neg (fun h => hgit h.2)]

theorem flushRounds_git (apply : Str → Str → Str → Except Str Unit)
    (batches : List (List SyncQueueRecord)) (iid : Str) :
    ∀ (state : RepoState) (r : ImportRecord),
      getImport state.imports iid = some r → r.id = iid →
      r.storageKind = some .git →
      (∀ batch ∈ batches, ∀ item ∈ batch,
        apply item.importId item.relativePath item.content = .ok ()) →
      getImport (flushRounds apply batches state).imports iid
        = some { r with pendingPaths :=
            (batches.foldl
              (fun ps batch => (listSyncQueue batch).foldl (pendStep iid) ps)
              r.pendingPaths) } := by
  induction batches with
  | nil =>
    intro state r hfind _ _ _
    exact hfind
  | cons batch rest ih =>
    intro state r hfind hid hgit hok
    unfold flushRounds
    rw [List.foldl_cons]
    have hmid := flushSpecFold_git apply (listSyncQueue batch) iid
      { state with syncQueue := batch } r hfind hid hgit
      (fun item hi =>
        hok batch (by simp) item ((List.perm_insertionSort _ batch).mem_iff.mp hi))
    exact ih _ _ hmid hid hgit (fun b hb i hi => hok b (by simp [hb]) i hi)

theorem flushRounds_nonGit (apply : Str → Str → Str → Except Str Unit)
    (batches : List (List SyncQueueRecord)) (iid : Str) :
    ∀ (state : RepoState) (r : ImportRecord),
      getImport state.imports iid = some r → r.storageKind ≠ some .git →
      getImport (flushRounds apply batches state).imports iid = some r := by
  induction batches with
  | nil => intro state r hfind _; exact hfind
  | cons batch rest ih =>
    intro state r hfind hgit
    unfold flushRounds
    exact ih _ r
      (flushSpecFold_nonGit apply (listSyncQueue batch) iid
        { state with syncQueue := batch } r hfind hgit) hgit

theorem mem_appendDedup (paths : List Str) (path x : Str) :
    x ∈ appendDedup paths path ↔ x ∈ paths ∨ x = path := by
  by_cases h : path ∈ paths
  · simp only [appendDedup, if_pos h]
    constructor
    · exact .inl
    · rintro (hx | rfl)
      · exact hx
      · exact h
  · simp [appendDedup, if_neg h]

theorem nodup_appendDedup (paths : List Str) (path : Str)
    (h : paths.Nodup) : (appendDedup paths path).Nodup := by
  by_cases hp : path ∈ paths
  · simpa [appendDedup, hp] using h
  · simp only [appendDedup, if_neg hp]
    exact h.append (List.nodup_singleton path)
      (by simpa [List.disjoint_singleton] using hp)

theorem mem_foldl_pendStep (iid : Str) (l : List SyncQueueRecord) (x : Str) :
    ∀ paths, x ∈ l.foldl (pendStep iid) paths ↔
      x ∈ paths ∨ ∃ item ∈ l, item.importId = iid ∧ item.relativePath = x := by
  induction l with
  | nil => intro paths; simp
  | cons item rest ih =>
    intro paths
    rw [List.foldl_cons, ih]
    by_cases hc : item.importId = iid
    · rw [show pendStep iid paths item = appendDedup paths item.relativePath from by
        unfold pendStep; rw [if_pos hc]]
      rw [mem_appendDedup]
      constructor
      · rintro ((hx | rfl) | ⟨i, hi, h1, h2⟩)
        · exact .inl hx
        · exact .inr ⟨item, by simp, hc, rfl⟩
        · exact .inr ⟨i, by simp [hi], h1, h2⟩
      · rintro (hx | ⟨i, hi, h1, h2⟩)
        · exact .inl (.inl hx)
        · rcases List.mem_cons.mp hi with rfl | hi'
          · exact .inl (.inr h2.symm)
          · exact .inr ⟨i, hi', h1, h2⟩
    · rw [show pendStep iid paths item = paths from by
        unfold pendStep; rw [if_neg hc]]
      constructor
      · rintro (hx | ⟨i, hi, h1, h2⟩)
        · exact .inl hx
        · exact .inr ⟨i, by simp [hi], h1, h2⟩
      · rintro (hx | ⟨i, hi, h1, h2⟩)
        · exact .inl hx
        · rcases List.mem_cons.mp hi with rfl | hi'
          · exact absurd h1 hc
          · exact .inr ⟨i, hi', h1, h2⟩

theorem nodup_foldl_pendStep (iid : Str) (l : List SyncQueueRecord) :
    ∀ paths, paths.Nodup → (l.foldl (pendStep iid) paths).Nodup := by
  induction l with
  | nil => intro paths h; exact h
  | cons item rest ih =>
    intro paths h
    rw [List.foldl_cons]
    apply ih
    unfold pendStep
    split
    · exact nodup_appendDedup _ _ h
    · exact h

theorem mem_foldl_batches (iid : Str) (batches : List (List SyncQueueRecord))
    (x : Str) :
    ∀ paths, x ∈ batches.foldl
        (fun ps batch => (listSyncQueue batch).foldl (pendStep iid) ps) paths ↔
      x ∈ paths ∨ ∃ batch ∈ batches, ∃ item ∈ batch,
        item.importId = iid ∧ item.relativePath = x := by
  induction batches with
  | nil => intro paths; simp
  | cons batch rest ih =>
    intro paths
    rw [List.foldl_cons, ih, mem_foldl_pendStep]
    constructor
    · rintro ((hx | ⟨i, hi, h1, h2⟩) | ⟨b, hb, i, hi, h1, h2⟩)
      · exact .inl hx
      · exact .inr ⟨batch, by simp,
          i, (List.perm_insertionSort _ batch).mem_iff.mp hi, h1, h2⟩
      · exact .inr ⟨b, by simp [hb], i, hi, h1, h2⟩
    · rintro (hx | ⟨b, hb, i, hi, h1, h2⟩)
      · exact .inl (.inl hx)
      · rcases List.mem_cons.mp hb with rfl | hb'
        · exact .inl (.inr ⟨i, (List.perm_insertionSort _ b).mem_iff.mpr hi, h1, h2⟩)
        · exact .inr ⟨b, hb', i, hi, h1, h2⟩

theorem nodup_foldl_batches (iid : Str) (batches : List (List SyncQueueRecord)) :
    ∀ paths, paths.Nodup →
      (batches.foldl
        (fun ps batch => (listSyncQueue batch).foldl (pendStep iid) ps)
        paths).Nodup := by
  induction batches with
  | nil => intro paths h; exact h
  | cons batch rest ih =>
    intro paths h
    rw [List.foldl_cons]
    exact ih _ (nodup_foldl_pendStep iid _ _ h)

/-- C1: in the spec-modelled storage-aware flush, after N successful flush
rounds the git-storage import's `pendingPaths` is exactly the deduplicated
set of the flushed paths (no duplicates, and a path is present iff some
flushed entry of that import wrote it), while every import whose
storageKind is not git is left entirely unchanged. -/
theorem flushRounds_pendingPaths_dedup (apply : Str → Str → Str → Except Str Unit)
    (imports0 : List ImportRecord) (batches : List (List SyncQueueRecord))
    (imp : ImportRecord)
    (hfind : getImport imports0 imp.id = some imp)
    (hgit : imp.storageKind = some StorageKind.git)
    (hempty : imp.pendingPaths = [])
    (hok : ∀ batch ∈ batches, ∀ item ∈ batch,
      apply item.importId item.relativePath item.content = .ok ()) :
    (∃ imp', getImport (flushRounds apply batches ⟨imports0, []⟩).imports imp.id
        = some imp'
      ∧ imp'.pendingPaths.Nodup
      ∧ (∀ p, p ∈ imp'.pendingPaths ↔ ∃ batch ∈ batches, ∃ item ∈ batch,
          item.importId = imp.id ∧ item.relativePath = p))
    ∧ (∀ (iid : Str) (impD : ImportRecord), getImport imports0 iid = some impD →
        impD.storageKind ≠ some StorageKind.git →
        getImport (flushRounds apply batches ⟨imports0, []⟩).imports iid
          = some impD) := by
  constructor
  · have hmain := flushRounds_git apply batches imp.id ⟨imports0, []⟩ imp
      hfind rfl hgit hok
    refine ⟨_, hmain, ?_, ?_⟩
    · show (batches.foldl
        (fun ps batch => (listSyncQueue batch).foldl (pendStep imp.id) ps)
        imp.pendingPaths).Nodup
      rw [hempty]
      exact nodup_foldl_batches imp.id batches [] List.nodup_nil
    · intro p
      show p ∈ batches.foldl
        (fun ps batch => (listSyncQueue batch).foldl (pendStep imp.id) ps)
        imp.pendingPaths ↔ _
      rw [hempty, mem_foldl_batches]
      simp
  · intro iid impD hfindD hgitD
    exact flushRounds_nonGit apply batches iid ⟨imports0, []⟩ impD hfindD hgitD

/-- A sample git-storage import used by the C1 witness. -/
def impGitSample : ImportRecord :=
  ⟨"g".data, "G".data, .tauri, 0, none, none, some StorageKind.git,
    none, none, none, none, none, []⟩

/-- A sample direct-storage import used by the C1 witness. -/
def impDirectSample : ImportRecord :=
  ⟨"d".data, "D".data, .tauri, 0, none, none, some StorageKind.direct,
    none, none, none, none, none, []⟩

/-- The two one-entry flush batches used by the C1 witness. -/
def batchesSample : List (List SyncQueueRecord) :=
  [[⟨"1".data, "g".data, .write, "a.http".data, "c".data, 1, none⟩],
    [⟨"2".data, "g".data, .write, "b.http".data, "c".data, 2, none⟩]]

/-- Witness for C1: two flush rounds over a git import write two distinct
paths; its pendingPaths afterwards is the deduplicated pair, and a sibling
direct-storage import is untouched. -/
theorem flushRounds_pendingPaths_dedup_witness :
    (∃ imp', getImport
        (flushRounds (fun _ _ _ => Except.ok ()) batchesSample
          ⟨[impGitSample, impDirectSample], []⟩).imports "g".data
        = some imp'
      ∧ imp'.pendingPaths.Nodup
      ∧ (∀ p, p ∈ imp'.pendingPaths ↔ ∃ batch ∈ batchesSample,
          ∃ item ∈ batch, item.importId = "g".data ∧ item.relativePath = p))
    ∧ getImport
        (flushRounds (fun _ _ _ => Except.ok ()) batchesSample
          ⟨[impGitSample, impDirectSample], []⟩).imports "d".data
        = some impDirectSample := by
  have h := flushRounds_pendingPaths_dedup (fun _ _ _ => Except.ok ())
    [impGitSample, impDirectSample] batchesSample impGitSample
    (by decide) (by decide) (by decide)
    (fun batch _ item _ => rfl)
  exact ⟨h.1, h.2 "d".data impDirectSample (by decide) (by decide)⟩

end Eshttp
